import Mathlib

/-!
Shallow embedding of `src/tiberius/src/plp.rs`: the Partially Length-Prefixed
(PLP) resumable type reader of the tiberius TDS client.

The decoder itself (`ReadTyMode`, `ReadTyMode.auto`, `ReadTyState`,
`ReadTyState.new`, `ReadTyState.read` with its body-reading loop) is
translated from the Rust source.  The byte source it reads from is an
external collaborator of the unit; it is modelled from the spec as a
finite list of bytes, together with a flag saying whether the source turns
into a hard I/O failure once exhausted (otherwise exhaustion is the
"insufficient data" condition, reported distinctly and consuming nothing).
-/

namespace Tiberius

/-- A wire byte. -/
abbrev Byte := Fin 256

/-- Modelled from the spec: the byte-source collaborator.  `bytes` are the
bytes still available, in order; when they run out, the source reports a
hard I/O failure if `hardErr` is set, and the "insufficient data"
(would-block) condition otherwise. -/
structure Source where
  bytes : List Byte
  hardErr : Bool
deriving DecidableEq, Repr

/-- Outcome of one primitive read on the byte source. -/
inductive ReadOutcome (α : Type) where
  | ok (v : α) (rest : Source)
  | suspend
  | ioError
deriving DecidableEq, Repr

/-- Value of a little-endian byte sequence. -/
def leVal (bs : List Byte) : Nat :=
  bs.foldr (fun b acc => b.val + 256 * acc) 0

/-- Modelled from the spec: `read_uN::<LittleEndian>` on the byte source —
an atomic fixed-width little-endian unsigned read.  It succeeds only when
`n` bytes are available and then consumes exactly those; otherwise it
consumes nothing and reports insufficient data or a hard failure. -/
def readUN (n : Nat) (src : Source) : ReadOutcome Nat :=
  if n ≤ src.bytes.length then
    .ok (leVal (src.bytes.take n)) ⟨src.bytes.drop n, src.hardErr⟩
  else if src.hardErr then .ioError else .suspend

/-- Modelled from the spec: `read_u8` on the byte source. -/
def readU8 (src : Source) : ReadOutcome Byte :=
  match src.bytes with
  | b :: rest => .ok b ⟨rest, src.hardErr⟩
  | [] => if src.hardErr then .ioError else .suspend

/-- Mode for type reader (plp.rs `ReadTyMode`). -/
inductive ReadTyMode where
  | FixedSize (n : Nat)
  | Plp
deriving DecidableEq, Repr

/-- Determine the mode automatically from size (plp.rs `ReadTyMode::auto`). -/
def ReadTyMode.auto (size : Nat) : ReadTyMode :=
  if size < 0xffff then
    ReadTyMode.FixedSize size
  else
    ReadTyMode.Plp

/-- A partially read type (plp.rs `ReadTyState`). -/
structure ReadTyState where
  mode : ReadTyMode
  data : Option (List Byte)
  chunk_data_left : Nat
deriving DecidableEq, Repr

/-- Initialize a type reader (plp.rs `ReadTyState::new`). -/
def ReadTyState.new (mode : ReadTyMode) : ReadTyState :=
  ⟨mode, none, 0⟩

/-- Result of one `read` (advance) call: `Poll<Option<Vec<u8>>, Error>`.
`Ready none` is the NULL value, `Ready (some bs)` a completed value,
`NotReady` the suspension on insufficient data, `IoErr` a propagated hard
I/O failure from the source. -/
inductive ReadResult where
  | Ready (v : Option (List Byte))
  | NotReady
  | IoErr
deriving DecidableEq, Repr

/-- Result of the body-reading loop, together with the mutable fields it
leaves behind (`buf` = accumulated bytes, `left` = `chunk_data_left`) and
the remaining source. -/
inductive BodyResult where
  | done (buf : List Byte) (rest : Source)
  | suspended (buf : List Byte) (left : Nat) (rest : Source)
  | ioErr (buf : List Byte) (left : Nat) (rest : Source)
deriving DecidableEq, Repr

/-- The body-reading loop of `ReadTyState::read` (the `loop` in plp.rs):
while a chunk is open, copy bytes one at a time into the buffer; when
`chunk_data_left` is 0, read the next chunk header (`Plp` mode; a header of
0 terminates) or treat the single segment as closed (`FixedSize` mode). -/
def readBody (mode : ReadTyMode) (buf : List Byte) (left : Nat) (input : Source) :
    BodyResult :=
  if left = 0 then
    match mode with
    | .FixedSize _ => .done buf input
    | .Plp =>
      match h : readUN 4 input with
      | .ok chunkSize input' =>
          if chunkSize = 0 then .done buf input'
          else readBody mode buf chunkSize input'
      | .suspend => .suspended buf left input
      | .ioError => .ioErr buf left input
  else
    match h : readU8 input with
    | .ok b input' => readBody mode (buf ++ [b]) (left - 1) input'
    | .suspend => .suspended buf left input
    | .ioError => .ioErr buf left input
termination_by input.bytes.length
decreasing_by
  · unfold readUN at h
    split at h
    next hle =>
      cases h
      simp only [List.length_drop]
      omega
    next => split at h <;> cases h
  · unfold readU8 at h
    split at h
    next l b' r he =>
      cases h
      simp only [he, List.length_cons]
      omega
    next => split at h <;> cases h

/-- Fold the outcome of the body loop back into the state and return value
of `ReadTyState::read`: on completion the buffer is taken (`data.take()`),
on suspension or hard failure the partially filled fields stay behind. -/
def finishBody (mode : ReadTyMode) : BodyResult → ReadResult × ReadTyState × Source
  | .done buf rest => (.Ready (some buf), ⟨mode, none, 0⟩, rest)
  | .suspended buf left rest => (.NotReady, ⟨mode, some buf, left⟩, rest)
  | .ioErr buf left rest => (.IoErr, ⟨mode, some buf, left⟩, rest)

/-- Read data stream as Plain or PLP (plp.rs `ReadTyState::read`).
Returns the new state and the remaining source alongside the poll result. -/
def ReadTyState.read (st : ReadTyState) (input : Source) :
    ReadResult × ReadTyState × Source :=
  match st.data with
  | some buf => finishBody st.mode (readBody st.mode buf st.chunk_data_left input)
  | none =>
    match (match st.mode with
           | .FixedSize _ => readUN 2 input
           | .Plp => readUN 8 input) with
    | .suspend => (.NotReady, st, input)
    | .ioError => (.IoErr, st, input)
    | .ok size input' =>
      let newData : Option (List Byte) :=
        if size = 0xffffffffffffffff then none          -- NULL value
        else if size = 0xfffffffffffffffe then some []  -- unknown size
        else some []                                    -- given size (capacity hint only)
      let newLeft : Nat :=
        match st.mode with
        | .FixedSize _ => size
        | .Plp => st.chunk_data_left
      match newData with
      | none => (.Ready none, ⟨st.mode, none, newLeft⟩, input')
      | some buf => finishBody st.mode (readBody st.mode buf newLeft input')

/-- Little-endian encoding of `v` on `n` bytes (used to build wire inputs
for the theorems). -/
def leBytes : Nat → Nat → List Byte
  | 0, _ => []
  | n + 1, v => ⟨v % 256, Nat.mod_lt v (by decide)⟩ :: leBytes n (v / 256)

/-- PLP chunk framing: each chunk as a 4-byte little-endian length followed
by its bytes, ended by the zero-length terminator chunk. -/
def encodeChunks : List (List Byte) → List Byte
  | [] => leBytes 4 0
  | c :: cs => leBytes 4 c.length ++ (c ++ encodeChunks cs)

/-- States reachable by constructing a reader and repeatedly advancing it
(the only operations plp.rs exposes: the fields are private). -/
inductive Reachable : ReadTyState → Prop
  | init (mode : ReadTyMode) : Reachable (ReadTyState.new mode)
  | step (st : ReadTyState) (input : Source) :
      Reachable st → Reachable (st.read input).2.1

/-- Modelled from the spec: the observable event "this call got (or had
already got) the size prefix" — true when the buffer is already present,
or when the size-prefix read on this call's input succeeds. -/
def sizeReadOk (st : ReadTyState) (input : Source) : Bool :=
  match st.data with
  | some _ => true
  | none =>
    match (match st.mode with
           | .FixedSize _ => readUN 2 input
           | .Plp => readUN 8 input) with
    | .ok _ _ => true
    | _ => false

/-- Ghost history flag: has the decoder consumed the size prefix of the
value it is currently decoding?  A completed value resets it (the next
value's prefix is pending); otherwise it is set once the size read
succeeds. -/
def ghostStep (st : ReadTyState) (input : Source) (g : Bool) : Bool :=
  match (st.read input).1 with
  | .Ready _ => false
  | _ => g || sizeReadOk st input

/-- Reachable states paired with the ghost history flag. -/
inductive ReachableG : ReadTyState → Bool → Prop
  | init (mode : ReadTyMode) : ReachableG (ReadTyState.new mode) false
  | step (st : ReadTyState) (input : Source) (g : Bool) :
      ReachableG st g → ReachableG (st.read input).2.1 (ghostStep st input g)

/-! ### Basic read lemmas -/

theorem readUN_ok_length {n : Nat} {src : Source} {v : Nat} {rest : Source}
    (h : readUN n src = .ok v rest) : rest.bytes.length + n = src.bytes.length := by
  unfold readUN at h
  split at h
  · cases h
    simp only [List.length_drop]
    omega
  · split at h <;> cases h

theorem readU8_ok_length {src : Source} {b : Byte} {rest : Source}
    (h : readU8 src = .ok b rest) : rest.bytes.length + 1 = src.bytes.length := by
  unfold readU8 at h
  split at h
  next l b' r he =>
    cases h
    simp [he]
  next => split at h <;> cases h

/-! ### Step lemmas for the body loop -/

theorem readBody_fixed_done (k : Nat) (buf : List Byte) (input : Source) :
    readBody (.FixedSize k) buf 0 input = .done buf input := by
  unfold readBody
  rfl

theorem readBody_plp_header {input : Source} {cs : Nat} {input' : Source}
    (h : readUN 4 input = .ok cs input') (buf : List Byte) :
    readBody .Plp buf 0 input =
      if cs = 0 then .done buf input' else readBody .Plp buf cs input' := by
  conv_lhs => rw [readBody.eq_def]
  rw [if_pos rfl]
  split
  next x n heq => cases heq
  next x heq =>
    split
    next chunkSize input'' heq2 =>
      rw [h] at heq2
      cases heq2
      rfl
    next heq2 =>
      rw [h] at heq2
      cases heq2
    next heq2 =>
      rw [h] at heq2
      cases heq2

theorem readBody_plp_header_suspend {input : Source}
    (h : readUN 4 input = .suspend) (buf : List Byte) :
    readBody .Plp buf 0 input = .suspended buf 0 input := by
  conv_lhs => rw [readBody.eq_def]
  rw [if_pos rfl]
  split
  next x n heq => cases heq
  next x heq =>
    split
    next chunkSize input'' heq2 =>
      rw [h] at heq2
      cases heq2
    next heq2 => rfl
    next heq2 =>
      rw [h] at heq2
      cases heq2

theorem readBody_plp_header_ioError {input : Source}
    (h : readUN 4 input = .ioError) (buf : List Byte) :
    readBody .Plp buf 0 input = .ioErr buf 0 input := by
  conv_lhs => rw [readBody.eq_def]
  rw [if_pos rfl]
  split
  next x n heq => cases heq
  next x heq =>
    split
    next chunkSize input'' heq2 =>
      rw [h] at heq2
      cases heq2
    next heq2 =>
      rw [h] at heq2
      cases heq2
    next heq2 => rfl

theorem readBody_byte {left : Nat} (hl : left ≠ 0) {input : Source} {b : Byte}
    {input' : Source} (h : readU8 input = .ok b input')
    (mode : ReadTyMode) (buf : List Byte) :
    readBody mode buf left input = readBody mode (buf ++ [b]) (left - 1) input' := by
  conv_lhs => rw [readBody.eq_def]
  rw [if_neg hl]
  split
  next b' input'' heq =>
    rw [h] at heq
    cases heq
    rfl
  next heq =>
    rw [h] at heq
    cases heq
  next heq =>
    rw [h] at heq
    cases heq

theorem readBody_byte_suspend {left : Nat} (hl : left ≠ 0) {input : Source}
    (h : readU8 input = .suspend) (mode : ReadTyMode) (buf : List Byte) :
    readBody mode buf left input = .suspended buf left input := by
  conv_lhs => rw [readBody.eq_def]
  rw [if_neg hl]
  split
  next b' input'' heq =>
    rw [h] at heq
    cases heq
  next heq => rfl
  next heq =>
    rw [h] at heq
    cases heq

theorem readBody_byte_ioError {left : Nat} (hl : left ≠ 0) {input : Source}
    (h : readU8 input = .ioError) (mode : ReadTyMode) (buf : List Byte) :
    readBody mode buf left input = .ioErr buf left input := by
  conv_lhs => rw [readBody.eq_def]
  rw [if_neg hl]
  split
  next b' input'' heq =>
    rw [h] at heq
    cases heq
  next heq =>
    rw [h] at heq
    cases heq
  next heq => rfl

/-! ### Little-endian encoding lemmas -/

theorem leVal_nil : leVal [] = 0 := rfl

theorem leVal_cons (b : Byte) (t : List Byte) :
    leVal (b :: t) = b.val + 256 * leVal t := rfl

theorem leBytes_length (n v : Nat) : (leBytes n v).length = n := by
  induction n generalizing v with
  | zero => rfl
  | succ k ih => simp [leBytes, ih]

theorem leVal_lt (bs : List Byte) : leVal bs < 256 ^ bs.length := by
  induction bs with
  | nil => simp [leVal_nil]
  | cons b t ih =>
    have hb := b.isLt
    rw [leVal_cons, List.length_cons, pow_succ, mul_comm (256 ^ t.length) 256]
    have h2 : leVal t + 1 ≤ 256 ^ t.length := ih
    calc b.val + 256 * leVal t < 256 * (leVal t + 1) := by omega
    _ ≤ 256 * 256 ^ t.length := Nat.mul_le_mul_left 256 h2

theorem leVal_leBytes {n v : Nat} (h : v < 256 ^ n) : leVal (leBytes n v) = v := by
  induction n generalizing v with
  | zero =>
    simp only [pow_zero, Nat.lt_one_iff] at h
    simp [leBytes, leVal_nil, h]
  | succ k ih =>
    have hv : v / 256 < 256 ^ k := by
      rw [pow_succ, mul_comm] at h
      exact Nat.div_lt_of_lt_mul h
    rw [leBytes, leVal_cons, ih hv]
    show v % 256 + 256 * (v / 256) = v
    omega

theorem readUN_exact {n : Nat} {hd : List Byte} (tail : List Byte)
    (hlen : hd.length = n) (e : Bool) :
    readUN n ⟨hd ++ tail, e⟩ = .ok (leVal hd) ⟨tail, e⟩ := by
  unfold readUN
  rw [if_pos (by simp [hlen])]
  rw [List.take_left' hlen, List.drop_left' hlen]

theorem readUN_leBytes (n v : Nat) (hv : v < 256 ^ n) (tail : List Byte) (e : Bool) :
    readUN n ⟨leBytes n v ++ tail, e⟩ = .ok v ⟨tail, e⟩ := by
  rw [readUN_exact tail (leBytes_length n v) e, leVal_leBytes hv]

/-! ### Body-loop lemmas -/

theorem readBody_copy (c : List Byte) (mode : ReadTyMode) (buf tail : List Byte)
    (e : Bool) :
    readBody mode buf c.length ⟨c ++ tail, e⟩ = readBody mode (buf ++ c) 0 ⟨tail, e⟩ := by
  induction c generalizing buf with
  | nil => simp
  | cons b t ih =>
    have h8 : readU8 ⟨(b :: t) ++ tail, e⟩ = .ok b ⟨t ++ tail, e⟩ := rfl
    simp only [List.length_cons]
    rw [readBody_byte (Nat.succ_ne_zero t.length) h8 mode buf]
    simp only [Nat.succ_sub_one, Nat.add_sub_cancel]
    rw [ih (buf ++ [b])]
    simp

theorem readBody_chunks (cs : List (List Byte)) (buf tail : List Byte) (e : Bool)
    (h : ∀ c ∈ cs, c.length ≠ 0 ∧ c.length < 2 ^ 32) :
    readBody .Plp buf 0 ⟨encodeChunks cs ++ tail, e⟩ =
      .done (buf ++ cs.flatten) ⟨tail, e⟩ := by
  have h256 : (256 : Nat) ^ 4 = 2 ^ 32 := by norm_num
  induction cs generalizing buf with
  | nil =>
    rw [encodeChunks, readBody_plp_header (readUN_leBytes 4 0 (by norm_num) tail e) buf]
    simp
  | cons c rest ih =>
    obtain ⟨hc0, hc32⟩ := h c (List.mem_cons_self c rest)
    rw [encodeChunks, List.append_assoc,
      readBody_plp_header (readUN_leBytes 4 c.length (h256 ▸ hc32) _ e) buf,
      if_neg hc0, List.append_assoc, readBody_copy,
      ih (buf ++ c) (fun c' hc' => h c' (List.mem_cons_of_mem c hc'))]
    simp

/-! ### Read-call lemmas -/

theorem readUN_ok_lt {n : Nat} {src : Source} {v : Nat} {rest : Source}
    (h : readUN n src = .ok v rest) : v < 256 ^ n := by
  unfold readUN at h
  split at h
  next hle =>
    cases h
    have hv := leVal_lt (src.bytes.take n)
    have hlen : (src.bytes.take n).length = n := by
      simp [List.length_take, Nat.min_eq_left hle]
    rwa [hlen] at hv
  next => split at h <;> cases h

theorem read_ok_plp {input : Source} {size : Nat} {input' : Source}
    (h : readUN 8 input = .ok size input') (l : Nat) :
    (⟨.Plp, none, l⟩ : ReadTyState).read input =
      if size = 0xffffffffffffffff then (.Ready none, ⟨.Plp, none, l⟩, input')
      else finishBody .Plp (readBody .Plp [] l input') := by
  unfold ReadTyState.read
  simp only [h]
  by_cases hs : size = 0xffffffffffffffff
  · simp [hs]
  · simp [hs]

theorem read_ok_fixed {input : Source} {size : Nat} {input' : Source}
    (h : readUN 2 input = .ok size input') (k l : Nat) :
    (⟨.FixedSize k, none, l⟩ : ReadTyState).read input =
      finishBody (.FixedSize k) (readBody (.FixedSize k) [] size input') := by
  have hlt : size < 256 ^ 2 := readUN_ok_lt h
  norm_num at hlt
  unfold ReadTyState.read
  simp only [h]
  rw [if_neg (by omega), if_neg (by omega)]

/-- Decoding a fresh `FixedSize` reader: the 2-byte little-endian size `n`
is followed by exactly `n` raw payload bytes, one segment, no chunk
headers.  Shared helper for the fixed-size claims. -/
theorem read_fixed_value (k n : Nat) (hn : n < 2 ^ 16) (body tail : List Byte)
    (hb : body.length = n) (e : Bool) :
    (ReadTyState.new (.FixedSize k)).read ⟨leBytes 2 n ++ (body ++ tail), e⟩ =
      (.Ready (some body), ⟨.FixedSize k, none, 0⟩, ⟨tail, e⟩) := by
  have h2 : readUN 2 ⟨leBytes 2 n ++ (body ++ tail), e⟩ = .ok n ⟨body ++ tail, e⟩ :=
    readUN_leBytes 2 n (by rw [show (256 : Nat) ^ 2 = 2 ^ 16 by norm_num]; exact hn)
      (body ++ tail) e
  simp only [ReadTyState.new]
  rw [read_ok_fixed h2 k 0, ← hb, readBody_copy body _ [] tail e, List.nil_append,
    readBody_fixed_done]
  rfl

/-- C1: in `Plp` mode, any 8-byte size whose value is not the NULL sentinel
(including `max-1`, the unknown-length sentinel, and every plain length
hint) only pre-sizes the buffer: the decoded value is the in-order
concatenation of the payload bytes of the nonzero-length 4-byte-prefixed
chunks up to the zero chunk header, independent of the size value, and
exactly those bytes are consumed. -/
theorem plp_size_is_only_a_hint (p : Nat) (hp : p < 2 ^ 64)
    (hnn : p ≠ 0xffffffffffffffff) (cs : List (List Byte))
    (hcs : ∀ c ∈ cs, c.length ≠ 0 ∧ c.length < 2 ^ 32) (tail : List Byte) (e : Bool) :
    (ReadTyState.new .Plp).read ⟨leBytes 8 p ++ (encodeChunks cs ++ tail), e⟩ =
      (.Ready (some cs.flatten), ⟨.Plp, none, 0⟩, ⟨tail, e⟩) := by
  have h8 : readUN 8 ⟨leBytes 8 p ++ (encodeChunks cs ++ tail), e⟩ =
      .ok p ⟨encodeChunks cs ++ tail, e⟩ :=
    readUN_leBytes 8 p (by rw [show (256 : Nat) ^ 8 = 2 ^ 64 by norm_num]; exact hp)
      (encodeChunks cs ++ tail) e
  simp only [ReadTyState.new]
  rw [read_ok_plp h8 0, if_neg hnn, readBody_chunks cs [] tail e hcs]
  rfl

/-- Witness for C1: the spec example — size `max-1` (unknown length) then
chunks of 3 and 2 bytes and the 0 terminator decode to the 5-byte
concatenation. -/
theorem plp_size_is_only_a_hint_witness :
    (ReadTyState.new .Plp).read
        ⟨leBytes 8 0xfffffffffffffffe ++
          (encodeChunks [[1, 2, 3], [4, 5]] ++ []), false⟩ =
      (.Ready (some ([[1, 2, 3], [4, 5]] : List (List Byte)).flatten),
        ⟨.Plp, none, 0⟩, ⟨[], false⟩) :=
  plp_size_is_only_a_hint 0xfffffffffffffffe (by norm_num) (by norm_num)
    [[1, 2, 3], [4, 5]] (by decide) [] false

/-- C2: in `FixedSize` mode a 2-byte size `n ≤ 65534` (0 and 1 included)
makes `read` return exactly the next `n` raw bytes, with no 4-byte chunk
headers and nothing consumed past those `n` payload bytes. -/
theorem fixed_decodes_n_raw_bytes (k n : Nat) (hn : n ≤ 65534) (body tail : List Byte)
    (hb : body.length = n) (e : Bool) :
    (ReadTyState.new (.FixedSize k)).read ⟨leBytes 2 n ++ (body ++ tail), e⟩ =
      (.Ready (some body), ⟨.FixedSize k, none, 0⟩, ⟨tail, e⟩) :=
  read_fixed_value k n (by omega) body tail hb e

/-- Witness for C2: size 3 yields the next 3 bytes and leaves the rest. -/
theorem fixed_decodes_n_raw_bytes_witness :
    (ReadTyState.new (.FixedSize 3)).read ⟨leBytes 2 3 ++ ([9, 8, 7] ++ [6]), false⟩ =
      (.Ready (some [9, 8, 7]), ⟨.FixedSize 3, none, 0⟩, ⟨[6], false⟩) :=
  fixed_decodes_n_raw_bytes 3 3 (by norm_num) [9, 8, 7] [6] (by decide) false

/-- C3: in `Plp` mode the all-bits-set 8-byte size is the NULL sentinel:
`read` completes immediately with the NULL outcome and consumes exactly the
8 sentinel bytes, nothing from the body. -/
theorem plp_null_sentinel (tail : List Byte) (e : Bool) :
    (ReadTyState.new .Plp).read ⟨List.replicate 8 (255 : Byte) ++ tail, e⟩ =
      (.Ready none, ⟨.Plp, none, 0⟩, ⟨tail, e⟩) := by
  have hv : leVal (List.replicate 8 (255 : Byte)) = 0xffffffffffffffff := by decide
  have h8 : readUN 8 ⟨List.replicate 8 (255 : Byte) ++ tail, e⟩ =
      .ok 0xffffffffffffffff ⟨tail, e⟩ := by
    rw [readUN_exact tail (by simp) e, hv]
  simp only [ReadTyState.new]
  rw [read_ok_plp h8 0, if_pos rfl]

/-- C4: the mode selector returns `FixedSize s` exactly when `s < 0xFFFF`
and `Plp` otherwise; it is a total function of `s` with no failure case. -/
theorem auto_mode_selection (s : Nat) :
    (ReadTyMode.auto s = .FixedSize s ↔ s < 0xffff) ∧
      (ReadTyMode.auto s = .Plp ↔ ¬s < 0xffff) := by
  unfold ReadTyMode.auto
  split <;> rename_i h <;> refine ⟨?_, ?_⟩ <;> simp [h]

/-- C9: in `FixedSize` mode the 2-byte size `0xFFFF` is a literal length of
65535 — it cannot hit the 64-bit NULL or unknown-length sentinels — so the
decoder reads 65535 payload bytes. -/
theorem fixed_ffff_is_literal_length (k : Nat) (body tail : List Byte)
    (hb : body.length = 65535) (e : Bool) :
    (ReadTyState.new (.FixedSize k)).read
        ⟨(255 : Byte) :: (255 : Byte) :: (body ++ tail), e⟩ =
      (.Ready (some body), ⟨.FixedSize k, none, 0⟩, ⟨tail, e⟩) := by
  have hle : ((255 : Byte) :: (255 : Byte) :: (body ++ tail) : List Byte) =
      leBytes 2 65535 ++ (body ++ tail) := rfl
  rw [hle]
  exact read_fixed_value k 65535 (by norm_num) body tail hb e

/-- Witness for C9: a 65535-byte body after the `0xFFFF` size is decoded
whole. -/
theorem fixed_ffff_is_literal_length_witness :
    (ReadTyState.new (.FixedSize 7)).read
        ⟨(255 : Byte) :: (255 : Byte) :: (List.replicate 65535 (42 : Byte) ++ []), false⟩ =
      (.Ready (some (List.replicate 65535 (42 : Byte))), ⟨.FixedSize 7, none, 0⟩,
        ⟨[], false⟩) :=
  fixed_ffff_is_literal_length 7 (List.replicate 65535 (42 : Byte)) []
    (by rw [List.length_replicate]) false

/-- The body loop in `FixedSize` mode never inspects the size stored in the
mode tag. -/
theorem readBody_fixed_param (n m left : Nat) (buf : List Byte) (input : Source) :
    readBody (.FixedSize n) buf left input = readBody (.FixedSize m) buf left input := by
  induction left generalizing buf input with
  | zero => rw [readBody_fixed_done, readBody_fixed_done]
  | succ k ih =>
    cases h8 : readU8 input with
    | ok b input' =>
      rw [readBody_byte (Nat.succ_ne_zero k) h8 (.FixedSize n) buf,
        readBody_byte (Nat.succ_ne_zero k) h8 (.FixedSize m) buf]
      simp only [Nat.succ_sub_one]
      exact ih (buf ++ [b]) input'
    | suspend =>
      rw [readBody_byte_suspend (Nat.succ_ne_zero k) h8 (.FixedSize n) buf,
        readBody_byte_suspend (Nat.succ_ne_zero k) h8 (.FixedSize m) buf]
    | ioError =>
      rw [readBody_byte_ioError (Nat.succ_ne_zero k) h8 (.FixedSize n) buf,
        readBody_byte_ioError (Nat.succ_ne_zero k) h8 (.FixedSize m) buf]

/-- `finishBody` stores the mode tag verbatim; every other component of its
result is independent of it. -/
theorem finishBody_components (mode mode' : ReadTyMode) (r : BodyResult) :
    (finishBody mode r).1 = (finishBody mode' r).1 ∧
      (finishBody mode r).2.2 = (finishBody mode' r).2.2 ∧
      (finishBody mode r).2.1.data = (finishBody mode' r).2.1.data ∧
      (finishBody mode r).2.1.chunk_data_left =
        (finishBody mode' r).2.1.chunk_data_left := by
  cases r <;> simp [finishBody]

/-- C8: decoding with `FixedSize n` and with `FixedSize m` over the same
source and the same mutable fields gives the same outcome, the same
remaining source and the same mutable fields: the size stored inside the
`FixedSize` mode is never read, only the 2-byte wire size is. -/
theorem fixed_size_param_never_read (n m : Nat) (d : Option (List Byte)) (l : Nat)
    (input : Source) :
    ((⟨.FixedSize n, d, l⟩ : ReadTyState).read input).1 =
        ((⟨.FixedSize m, d, l⟩ : ReadTyState).read input).1 ∧
      ((⟨.FixedSize n, d, l⟩ : ReadTyState).read input).2.2 =
        ((⟨.FixedSize m, d, l⟩ : ReadTyState).read input).2.2 ∧
      ((⟨.FixedSize n, d, l⟩ : ReadTyState).read input).2.1.data =
        ((⟨.FixedSize m, d, l⟩ : ReadTyState).read input).2.1.data ∧
      ((⟨.FixedSize n, d, l⟩ : ReadTyState).read input).2.1.chunk_data_left =
        ((⟨.FixedSize m, d, l⟩ : ReadTyState).read input).2.1.chunk_data_left := by
  cases d with
  | some buf =>
    unfold ReadTyState.read
    simp only
    rw [readBody_fixed_param n m l buf input]
    exact finishBody_components _ _ _
  | none =>
    unfold ReadTyState.read
    simp only
    cases h2 : readUN 2 input with
    | suspend => simp [h2]
    | ioError => simp [h2]
    | ok size input' =>
      simp only [h2]
      by_cases hs : size = 0xffffffffffffffff
      · simp [hs]
      · simp only [hs, if_false, ite_self]
        rw [readBody_fixed_param n m size [] input']
        exact finishBody_components _ _ _

/-! ### Error propagation lemmas -/

theorem readUN_no_ioError {n : Nat} {src : Source} (h : src.hardErr = false) :
    readUN n src ≠ .ioError := by
  unfold readUN
  split
  · simp
  · rw [h]
    simp

theorem readUN_ok_hardErr {n : Nat} {src : Source} {v : Nat} {rest : Source}
    (h : readUN n src = .ok v rest) : rest.hardErr = src.hardErr := by
  unfold readUN at h
  split at h
  · cases h
    rfl
  · split at h <;> cases h

theorem readU8_no_ioError {src : Source} (h : src.hardErr = false) :
    readU8 src ≠ .ioError := by
  unfold readU8
  split
  · simp
  · rw [h]
    simp

theorem readU8_ok_hardErr {src : Source} {b : Byte} {rest : Source}
    (h : readU8 src = .ok b rest) : rest.hardErr = src.hardErr := by
  unfold readU8 at h
  split at h
  next l b' r he =>
    cases h
    rfl
  next => split at h <;> cases h

/-- Without a hard failure from the source, the body loop never reports a
hard failure. -/
theorem readBody_no_ioErr (N : Nat) : ∀ (mode : ReadTyMode) (buf : List Byte)
    (left : Nat) (input : Source), input.bytes.length < N → input.hardErr = false →
    ∀ b l r, readBody mode buf left input ≠ .ioErr b l r := by
  induction N with
  | zero => omega
  | succ N ih =>
    intro mode buf left input hN he b l r
    rcases left with _ | k
    · cases mode with
      | FixedSize sz =>
        rw [readBody_fixed_done]
        simp
      | Plp =>
        cases h4 : readUN 4 input with
        | ok chunkSize input' =>
          rw [readBody_plp_header h4 buf]
          have hlen := readUN_ok_length h4
          have he' : input'.hardErr = false := by rw [readUN_ok_hardErr h4, he]
          by_cases hc : chunkSize = 0
          · simp [hc]
          · rw [if_neg hc]
            exact ih .Plp buf chunkSize input' (by omega) he' b l r
        | suspend =>
          rw [readBody_plp_header_suspend h4 buf]
          simp
        | ioError => exact absurd h4 (readUN_no_ioError he)
    · cases h8 : readU8 input with
      | ok b' input' =>
        rw [readBody_byte (Nat.succ_ne_zero k) h8 mode buf]
        have hlen := readU8_ok_length h8
        have he' : input'.hardErr = false := by rw [readU8_ok_hardErr h8, he]
        exact ih mode (buf ++ [b']) (k + 1 - 1) input' (by omega) he' b l r
      | suspend =>
        rw [readBody_byte_suspend (Nat.succ_ne_zero k) h8 mode buf]
        simp
      | ioError => exact absurd h8 (readU8_no_ioError he)

/-- Without a hard failure from the source, `read` never yields `IoErr`. -/
theorem read_no_ioErr (st : ReadTyState) (input : Source)
    (he : input.hardErr = false) : (st.read input).1 ≠ .IoErr := by
  obtain ⟨mode, d, l⟩ := st
  cases d with
  | some buf =>
    unfold ReadTyState.read
    simp only
    cases hb : readBody mode buf l input with
    | done b r => simp [finishBody, hb]
    | suspended b lft r => simp [finishBody, hb]
    | ioErr b lft r =>
      exact absurd hb
        (readBody_no_ioErr (input.bytes.length + 1) mode buf l input (by omega) he b lft r)
  | none =>
    unfold ReadTyState.read
    simp only
    cases mode with
    | FixedSize sz =>
      cases h2 : readUN 2 input with
      | ok size input' =>
        simp only [h2]
        have he' : input'.hardErr = false := by rw [readUN_ok_hardErr h2, he]
        by_cases hs : size = 0xffffffffffffffff
        · simp [hs]
        · simp only [hs, if_false, ite_self]
          cases hb : readBody (.FixedSize sz) [] size input' with
          | done b r => simp [finishBody, hb]
          | suspended b lft r => simp [finishBody, hb]
          | ioErr b lft r =>
            exact absurd hb
              (readBody_no_ioErr (input'.bytes.length + 1) (.FixedSize sz) [] size input'
                (by omega) he' b lft r)
      | suspend => simp [h2]
      | ioError => exact absurd h2 (readUN_no_ioError he)
    | Plp =>
      cases h8 : readUN 8 input with
      | ok size input' =>
        simp only [h8]
        have he' : input'.hardErr = false := by rw [readUN_ok_hardErr h8, he]
        by_cases hs : size = 0xffffffffffffffff
        · simp [hs]
        · simp only [hs, if_false, ite_self]
          cases hb : readBody .Plp [] l input' with
          | done b r => simp [finishBody, hb]
          | suspended b lft r => simp [finishBody, hb]
          | ioErr b lft r =>
            exact absurd hb
              (readBody_no_ioErr (input'.bytes.length + 1) .Plp [] l input'
                (by omega) he' b lft r)
      | suspend => simp [h8]
      | ioError => exact absurd h8 (readUN_no_ioError he)

/-- C6: when the source merely lacks bytes, `read` yields the distinct
Suspended outcome rather than an error, so without a hard I/O failure the
result ranges over exactly Suspended, NULL and a completed byte value;
only a hard failure propagates as a decoder failure. -/
theorem advance_outcome_range (st : ReadTyState) (input : Source)
    (h : input.hardErr = false) :
    (st.read input).1 ≠ .IoErr ∧
      ((st.read input).1 = .NotReady ∨ (st.read input).1 = .Ready none ∨
        ∃ bs, (st.read input).1 = .Ready (some bs)) := by
  refine ⟨read_no_ioErr st input h, ?_⟩
  cases hr : (st.read input).1 with
  | Ready v =>
    cases v with
    | none => exact Or.inr (Or.inl rfl)
    | some bs => exact Or.inr (Or.inr ⟨bs, rfl⟩)
  | NotReady => exact Or.inl rfl
  | IoErr => exact absurd hr (read_no_ioErr st input h)

/-- Witness for C6: an empty, non-failing source suspends a fresh `Plp`
reader. -/
theorem advance_outcome_range_witness :
    ((ReadTyState.new .Plp).read ⟨[], false⟩).1 ≠ .IoErr ∧
      (((ReadTyState.new .Plp).read ⟨[], false⟩).1 = .NotReady ∨
        ((ReadTyState.new .Plp).read ⟨[], false⟩).1 = .Ready none ∨
        ∃ bs, ((ReadTyState.new .Plp).read ⟨[], false⟩).1 = .Ready (some bs)) :=
  advance_outcome_range (ReadTyState.new .Plp) ⟨[], false⟩ rfl

/-! ### Resumption lemmas -/

theorem readUN_append {n : Nat} {A A1 : List Byte} {e e1 : Bool} {v : Nat}
    (h : readUN n ⟨A, e⟩ = .ok v ⟨A1, e1⟩) (B : List Byte) :
    readUN n ⟨A ++ B, e⟩ = .ok v ⟨A1 ++ B, e1⟩ := by
  unfold readUN at h ⊢
  split at h
  next hle =>
    have hle' : n ≤ A.length := hle
    cases h
    rw [if_pos (by simp only [List.length_append]; omega)]
    simp [List.take_append_of_le_length hle', List.drop_append_of_le_length hle']
  next => split at h <;> cases h

theorem readU8_append {A A1 : List Byte} {e e1 : Bool} {b : Byte}
    (h : readU8 ⟨A, e⟩ = .ok b ⟨A1, e1⟩) (B : List Byte) :
    readU8 ⟨A ++ B, e⟩ = .ok b ⟨A1 ++ B, e1⟩ := by
  cases A with
  | nil => cases e <;> simp [readU8] at h
  | cons a t =>
    have ht : readU8 ⟨a :: t, e⟩ = .ok a ⟨t, e⟩ := rfl
    rw [ht] at h
    cases h
    rfl

/-- If the body loop suspends, feeding the unconsumed remainder plus any
further bytes continues exactly where it stopped: the final outcome equals
running the loop once over the whole stream. -/
theorem readBody_resume (N : Nat) : ∀ (mode : ReadTyMode) (buf : List Byte)
    (left : Nat) (A : List Byte) (e : Bool) (b' : List Byte) (l' : Nat) (rest : Source),
    A.length < N →
    readBody mode buf left ⟨A, e⟩ = .suspended b' l' rest →
    rest.hardErr = e ∧
      ∀ B, readBody mode b' l' ⟨rest.bytes ++ B, e⟩ =
        readBody mode buf left ⟨A ++ B, e⟩ := by
  induction N with
  | zero => omega
  | succ N ih =>
    intro mode buf left A e b' l' rest hN h
    rcases left with _ | k
    · cases mode with
      | FixedSize sz =>
        rw [readBody_fixed_done] at h
        cases h
      | Plp =>
        cases h4 : readUN 4 ⟨A, e⟩ with
        | ok chunkSize input' =>
          rw [readBody_plp_header h4 buf] at h
          by_cases hc : chunkSize = 0
          · rw [if_pos hc] at h
            cases h
          · rw [if_neg hc] at h
            obtain ⟨A1, e1⟩ := input'
            have he1 : e1 = e := readUN_ok_hardErr h4
            rw [he1] at h4 h
            have hlen := readUN_ok_length h4
            simp only at hlen
            obtain ⟨hre, hres⟩ :=
              ih .Plp buf chunkSize A1 e b' l' rest (by omega) h
            refine ⟨hre, fun B => ?_⟩
            rw [hres B, readBody_plp_header (readUN_append h4 B) buf, if_neg hc]
        | suspend =>
          rw [readBody_plp_header_suspend h4 buf] at h
          cases h
          refine ⟨rfl, fun B => rfl⟩
        | ioError =>
          rw [readBody_plp_header_ioError h4 buf] at h
          cases h
    · cases h8 : readU8 ⟨A, e⟩ with
      | ok b input' =>
        rw [readBody_byte (Nat.succ_ne_zero k) h8 mode buf] at h
        obtain ⟨A1, e1⟩ := input'
        have he1 : e1 = e := readU8_ok_hardErr h8
        rw [he1] at h8 h
        have hlen := readU8_ok_length h8
        simp only at hlen
        obtain ⟨hre, hres⟩ :=
          ih mode (buf ++ [b]) (k + 1 - 1) A1 e b' l' rest (by omega) h
        refine ⟨hre, fun B => ?_⟩
        rw [hres B, readBody_byte (Nat.succ_ne_zero k) (readU8_append h8 B) mode buf]
      | suspend =>
        rw [readBody_byte_suspend (Nat.succ_ne_zero k) h8 mode buf] at h
        cases h
        refine ⟨rfl, fun B => rfl⟩
      | ioError =>
        rw [readBody_byte_ioError (Nat.succ_ne_zero k) h8 mode buf] at h
        cases h

theorem read_suspend_plp {input : Source} (h : readUN 8 input = .suspend) (l : Nat) :
    (⟨.Plp, none, l⟩ : ReadTyState).read input = (.NotReady, ⟨.Plp, none, l⟩, input) := by
  unfold ReadTyState.read
  simp [h]

theorem read_suspend_fixed {input : Source} (h : readUN 2 input = .suspend) (k l : Nat) :
    (⟨.FixedSize k, none, l⟩ : ReadTyState).read input =
      (.NotReady, ⟨.FixedSize k, none, l⟩, input) := by
  unfold ReadTyState.read
  simp [h]

theorem read_ioError_plp {input : Source} (h : readUN 8 input = .ioError) (l : Nat) :
    (⟨.Plp, none, l⟩ : ReadTyState).read input = (.IoErr, ⟨.Plp, none, l⟩, input) := by
  unfold ReadTyState.read
  simp [h]

theorem read_ioError_fixed {input : Source} (h : readUN 2 input = .ioError) (k l : Nat) :
    (⟨.FixedSize k, none, l⟩ : ReadTyState).read input =
      (.IoErr, ⟨.FixedSize k, none, l⟩, input) := by
  unfold ReadTyState.read
  simp [h]

/-- C5: if an `advance` call runs out of bytes and suspends (at any split
point, mid-chunk included), a second call over the unconsumed remainder
plus the newly arrived bytes gives exactly the result of a single call
over the whole stream: no byte lost, none re-read, partial progress kept
in the state fields. -/
theorem suspended_advance_resumes (st : ReadTyState) (A : List Byte) (e : Bool)
    (st' : ReadTyState) (rest : Source)
    (h : st.read ⟨A, e⟩ = (.NotReady, st', rest)) :
    rest.hardErr = e ∧
      ∀ B, st'.read ⟨rest.bytes ++ B, e⟩ = st.read ⟨A ++ B, e⟩ := by
  obtain ⟨mode, d, l⟩ := st
  cases d with
  | some buf =>
    unfold ReadTyState.read at h
    simp only at h
    cases hb : readBody mode buf l ⟨A, e⟩ with
    | done b r =>
      rw [hb] at h
      simp [finishBody] at h
    | ioErr b lft r =>
      rw [hb] at h
      simp [finishBody] at h
    | suspended b lft r =>
      rw [hb] at h
      simp only [finishBody] at h
      injection h with h1 h23
      injection h23 with h2 h3
      subst h2
      subst h3
      obtain ⟨hre, hres⟩ :=
        readBody_resume (A.length + 1) mode buf l A e b lft r (by omega) hb
      refine ⟨hre, fun B => ?_⟩
      show finishBody mode (readBody mode b lft ⟨r.bytes ++ B, e⟩) =
        finishBody mode (readBody mode buf l ⟨A ++ B, e⟩)
      rw [hres B]
  | none =>
    cases mode with
    | Plp =>
      cases h8 : readUN 8 ⟨A, e⟩ with
      | suspend =>
        rw [read_suspend_plp h8 l] at h
        injection h with h1 h23
        injection h23 with h2 h3
        subst h2
        subst h3
        exact ⟨rfl, fun B => rfl⟩
      | ioError =>
        rw [read_ioError_plp h8 l] at h
        injection h with h1 h23
        cases h1
      | ok size input' =>
        obtain ⟨A1, e1⟩ := input'
        have he1 : e1 = e := readUN_ok_hardErr h8
        rw [he1] at h8
        by_cases hs : size = 0xffffffffffffffff
        · rw [read_ok_plp h8 l, if_pos hs] at h
          injection h with h1 h23
          cases h1
        · rw [read_ok_plp h8 l, if_neg hs] at h
          cases hb : readBody .Plp [] l ⟨A1, e⟩ with
          | done b r =>
            rw [hb] at h
            simp [finishBody] at h
          | ioErr b lft r =>
            rw [hb] at h
            simp [finishBody] at h
          | suspended b lft r =>
            rw [hb] at h
            simp only [finishBody] at h
            injection h with h1 h23
            injection h23 with h2 h3
            subst h2
            subst h3
            have hlen := readUN_ok_length h8
            simp only at hlen
            obtain ⟨hre, hres⟩ :=
              readBody_resume (A1.length + 1) .Plp [] l A1 e b lft r (by omega) hb
            refine ⟨hre, fun B => ?_⟩
            rw [read_ok_plp (readUN_append h8 B) l, if_neg hs]
            show finishBody .Plp (readBody .Plp b lft ⟨r.bytes ++ B, e⟩) =
              finishBody .Plp (readBody .Plp [] l ⟨A1 ++ B, e⟩)
            rw [hres B]
    | FixedSize k =>
      cases h2 : readUN 2 ⟨A, e⟩ with
      | suspend =>
        rw [read_suspend_fixed h2 k l] at h
        injection h with h1 h23
        injection h23 with h2' h3
        subst h2'
        subst h3
        exact ⟨rfl, fun B => rfl⟩
      | ioError =>
        rw [read_ioError_fixed h2 k l] at h
        injection h with h1 h23
        cases h1
      | ok size input' =>
        obtain ⟨A1, e1⟩ := input'
        have he1 : e1 = e := readUN_ok_hardErr h2
        rw [he1] at h2
        rw [read_ok_fixed h2 k l] at h
        cases hb : readBody (.FixedSize k) [] size ⟨A1, e⟩ with
        | done b r =>
          rw [hb] at h
          simp [finishBody] at h
        | ioErr b lft r =>
          rw [hb] at h
          simp [finishBody] at h
        | suspended b lft r =>
          rw [hb] at h
          simp only [finishBody] at h
          injection h with h1 h23
          injection h23 with h2' h3
          subst h2'
          subst h3
          have hlen := readUN_ok_length h2
          simp only at hlen
          obtain ⟨hre, hres⟩ :=
            readBody_resume (A1.length + 1) (.FixedSize k) [] size A1 e b lft r
              (by omega) hb
          refine ⟨hre, fun B => ?_⟩
          rw [read_ok_fixed (readUN_append h2 B) k l]
          show finishBody (.FixedSize k) (readBody (.FixedSize k) b lft ⟨r.bytes ++ B, e⟩) =
            finishBody (.FixedSize k) (readBody (.FixedSize k) [] size ⟨A1 ++ B, e⟩)
          rw [hres B]

/-- Witness for C5: a `Plp` stream split mid-chunk (header 3, only one of
three payload bytes arrived) suspends, and resuming over the newly arrived
bytes equals the one-pass decode of the whole stream. -/
theorem suspended_advance_resumes_witness :
    (ReadTyState.new .Plp).read
        ⟨[254, 255, 255, 255, 255, 255, 255, 255, 3, 0, 0, 0, 10], false⟩ =
      (.NotReady, ⟨.Plp, some [10], 2⟩, ⟨[], false⟩) ∧
      (⟨.Plp, some [10], 2⟩ : ReadTyState).read ⟨[] ++ [11, 12, 0, 0, 0, 0], false⟩ =
        (ReadTyState.new .Plp).read
          ⟨[254, 255, 255, 255, 255, 255, 255, 255, 3, 0, 0, 0, 10] ++
            [11, 12, 0, 0, 0, 0], false⟩ := by
  have h : (ReadTyState.new .Plp).read
      ⟨[254, 255, 255, 255, 255, 255, 255, 255, 3, 0, 0, 0, 10], false⟩ =
      (.NotReady, ⟨.Plp, some [10], 2⟩, ⟨[], false⟩) := by
    have e8 : readUN 8 ⟨[254, 255, 255, 255, 255, 255, 255, 255, 3, 0, 0, 0, 10], false⟩ =
        .ok 0xfffffffffffffffe ⟨[3, 0, 0, 0, 10], false⟩ := by decide
    have e4 : readUN 4 ⟨[3, 0, 0, 0, 10], false⟩ = .ok 3 ⟨[10], false⟩ := by decide
    have e1 : readU8 ⟨[10], false⟩ = .ok 10 ⟨[], false⟩ := rfl
    have e0 : readU8 ⟨[], false⟩ = .suspend := rfl
    show (⟨.Plp, none, 0⟩ : ReadTyState).read _ = _
    rw [read_ok_plp e8 0, if_neg (by norm_num), readBody_plp_header e4,
      if_neg (by norm_num), readBody_byte (by norm_num) e1,
      readBody_byte_suspend (by norm_num) e0]
    rfl
  exact ⟨h, (suspended_advance_resumes _ _ _ _ _ h).2 [11, 12, 0, 0, 0, 0]⟩

/-- In every reachable state an absent buffer comes with
`chunk_data_left = 0`. -/
theorem reachable_left_zero {st : ReadTyState} (h : Reachable st) :
    st.data = none → st.chunk_data_left = 0 := by
  induction h with
  | init mode => intro _; rfl
  | step st input hst ih =>
    obtain ⟨mode, d, l⟩ := st
    cases d with
    | some buf =>
      have hread : (⟨mode, some buf, l⟩ : ReadTyState).read input =
          finishBody mode (readBody mode buf l input) := rfl
      rw [hread]
      cases readBody mode buf l input with
      | done b r => intro _; rfl
      | suspended b lft r => intro hd; cases hd
      | ioErr b lft r => intro hd; cases hd
    | none =>
      have hl : l = 0 := ih rfl
      subst hl
      cases mode with
      | Plp =>
        cases h8 : readUN 8 input with
        | suspend => rw [read_suspend_plp h8 0]; intro _; rfl
        | ioError => rw [read_ioError_plp h8 0]; intro _; rfl
        | ok size input' =>
          rw [read_ok_plp h8 0]
          by_cases hs : size = 0xffffffffffffffff
          · rw [if_pos hs]; intro _; rfl
          · rw [if_neg hs]
            cases readBody .Plp [] 0 input' with
            | done b r => intro _; rfl
            | suspended b lft r => intro hd; cases hd
            | ioErr b lft r => intro hd; cases hd
      | FixedSize k =>
        cases h2 : readUN 2 input with
        | suspend => rw [read_suspend_fixed h2 k 0]; intro _; rfl
        | ioError => rw [read_ioError_fixed h2 k 0]; intro _; rfl
        | ok size input' =>
          rw [read_ok_fixed h2 k 0]
          cases readBody (.FixedSize k) [] size input' with
          | done b r => intro _; rfl
          | suspended b lft r => intro hd; cases hd
          | ioErr b lft r => intro hd; cases hd

/-- C10: once `read` completes a value (bytes or NULL), the state it
leaves behind is exactly a freshly constructed reader of the same mode —
the buffer was taken (the NULL path never set it) — so a further call does
not stay terminal: it decodes a new value, starting with a new size
prefix. -/
theorem completion_resets_state (st : ReadTyState) (hst : Reachable st)
    (input : Source) (v : Option (List Byte))
    (hr : (st.read input).1 = .Ready v) :
    (st.read input).2.1 = ReadTyState.new st.mode ∧
      ∀ input2, ((st.read input).2.1).read input2 =
        (ReadTyState.new st.mode).read input2 := by
  have key : (st.read input).2.1 = ReadTyState.new st.mode := by
    obtain ⟨mode, d, l⟩ := st
    cases d with
    | some buf =>
      have hread : (⟨mode, some buf, l⟩ : ReadTyState).read input =
          finishBody mode (readBody mode buf l input) := rfl
      rw [hread] at hr ⊢
      cases hb : readBody mode buf l input with
      | done b r => rfl
      | suspended b lft r => rw [hb] at hr; simp [finishBody] at hr
      | ioErr b lft r => rw [hb] at hr; simp [finishBody] at hr
    | none =>
      have hl : l = 0 := reachable_left_zero hst rfl
      subst hl
      cases mode with
      | Plp =>
        cases h8 : readUN 8 input with
        | suspend => rw [read_suspend_plp h8 0] at hr; cases hr
        | ioError => rw [read_ioError_plp h8 0] at hr; cases hr
        | ok size input' =>
          rw [read_ok_plp h8 0] at hr ⊢
          by_cases hs : size = 0xffffffffffffffff
          · rw [if_pos hs]
            rfl
          · rw [if_neg hs] at hr ⊢
            cases hb : readBody .Plp [] 0 input' with
            | done b r => rfl
            | suspended b lft r => rw [hb] at hr; simp [finishBody] at hr
            | ioErr b lft r => rw [hb] at hr; simp [finishBody] at hr
      | FixedSize k =>
        cases h2 : readUN 2 input with
        | suspend => rw [read_suspend_fixed h2 k 0] at hr; cases hr
        | ioError => rw [read_ioError_fixed h2 k 0] at hr; cases hr
        | ok size input' =>
          rw [read_ok_fixed h2 k 0] at hr ⊢
          cases hb : readBody (.FixedSize k) [] size input' with
          | done b r => rfl
          | suspended b lft r => rw [hb] at hr; simp [finishBody] at hr
          | ioErr b lft r => rw [hb] at hr; simp [finishBody] at hr
  exact ⟨key, fun input2 => by rw [key]⟩

/-- Witness for C10: after decoding NULL, the state is again a fresh
`Plp` reader. -/
theorem completion_resets_state_witness :
    ((ReadTyState.new .Plp).read ⟨List.replicate 8 (255 : Byte), false⟩).1 =
        .Ready none ∧
      ((ReadTyState.new .Plp).read ⟨List.replicate 8 (255 : Byte), false⟩).2.1 =
        ReadTyState.new .Plp :=
  ⟨rfl, (completion_resets_state _ (Reachable.init .Plp)
    ⟨List.replicate 8 (255 : Byte), false⟩ none rfl).1⟩

/-- C7: throughout a reader's lifetime the buffer field is absent exactly
when decoding has not yet consumed the size prefix of the value currently
being decoded: the iff holds in the initial state and is preserved by
every advance call. -/
theorem buffer_absent_iff_no_size_read (st : ReadTyState) (g : Bool)
    (h : ReachableG st g) : st.data = none ↔ g = false := by
  induction h with
  | init mode => simp [ReadTyState.new]
  | step st input g hg ih =>
    obtain ⟨mode, d, l⟩ := st
    cases d with
    | some buf =>
      have hgt : g = true := by
        cases g with
        | false => exact absurd (ih.mpr rfl) (by simp)
        | true => rfl
      subst hgt
      have hread : (⟨mode, some buf, l⟩ : ReadTyState).read input =
          finishBody mode (readBody mode buf l input) := rfl
      unfold ghostStep
      rw [hread]
      cases hb : readBody mode buf l input with
      | done b r => simp [finishBody]
      | suspended b lft r => simp [finishBody]
      | ioErr b lft r => simp [finishBody]
    | none =>
      have hgf : g = false := ih.mp rfl
      subst hgf
      unfold ghostStep sizeReadOk
      cases mode with
      | Plp =>
        cases h8 : readUN 8 input with
        | suspend => rw [read_suspend_plp h8 l]; simp [h8]
        | ioError => rw [read_ioError_plp h8 l]; simp [h8]
        | ok size input' =>
          rw [read_ok_plp h8 l]
          simp only [h8]
          by_cases hs : size = 0xffffffffffffffff
          · rw [if_pos hs]
            simp
          · rw [if_neg hs]
            cases hb : readBody .Plp [] l input' with
            | done b r => simp [finishBody]
            | suspended b lft r => simp [finishBody]
            | ioErr b lft r => simp [finishBody]
      | FixedSize k =>
        cases h2 : readUN 2 input with
        | suspend => rw [read_suspend_fixed h2 k l]; simp [h2]
        | ioError => rw [read_ioError_fixed h2 k l]; simp [h2]
        | ok size input' =>
          rw [read_ok_fixed h2 k l]
          simp only [h2]
          cases hb : readBody (.FixedSize k) [] size input' with
          | done b r => simp [finishBody]
          | suspended b lft r => simp [finishBody]
          | ioErr b lft r => simp [finishBody]

/-- Witness for C7: the freshly constructed reader with the flag down. -/
theorem buffer_absent_iff_no_size_read_witness :
    (ReadTyState.new .Plp).data = none ↔ false = false :=
  buffer_absent_iff_no_size_read (ReadTyState.new .Plp) false (ReachableG.init .Plp)

end Tiberius
